import Mathlib

/-!
Verification of the narrative-synthesis pipeline of `daily_assistant.py`.

Strings are modelled as `List Char` (Python `str` over the ASCII range the
program manipulates).  Each definition below is a direct translation of the
corresponding Python function; the one source of randomness
(`random.choice` inside `get_random_transition`) is modelled by an explicit
stream of choices `picks : Nat → Fin 3`, indexed by call order, and the two
ambient inputs (`datetime.now().hour` inside `get_time_greeting`, the name
read by `get_user_name`) are passed as parameters.
-/

set_option maxRecDepth 40000

/-- `String.toList` shorthand used to write character-list literals. -/
def toL (s : String) : List Char := s.toList

/-! ## Character classes (the ASCII reading of Python's regex classes) -/

/-- Python regex `\d` (ASCII): a decimal digit character. -/
def isDigitC (c : Char) : Bool := decide (48 ≤ c.toNat ∧ c.toNat ≤ 57)

/-- An ASCII letter (the ASCII part of Python regex `\w` besides digits and
underscore). -/
def isAlphaC (c : Char) : Bool :=
  decide ((65 ≤ c.toNat ∧ c.toNat ≤ 90) ∨ (97 ≤ c.toNat ∧ c.toNat ≤ 122))

/-- Python regex `\w` (ASCII): letter, digit or underscore. -/
def isWordChar (c : Char) : Bool := isAlphaC c || isDigitC c || decide (c = '_')

/-- Python regex `\s` / `str.strip` whitespace (ASCII):
space, tab, newline, carriage return, vertical tab, form feed. -/
def isPySpace (c : Char) : Bool :=
  decide (c = ' ' ∨ c = '\t' ∨ c = '\n' ∨ c = '\r' ∨ c = '\x0b' ∨ c = '\x0c')

/-- ASCII `str.lower` on one character. -/
def lowerC (c : Char) : Char :=
  if 65 ≤ c.toNat ∧ c.toNat ≤ 90 then Char.ofNat (c.toNat + 32) else c

/-- ASCII `str.lower`. -/
def lowerL (l : List Char) : List Char := l.map lowerC

/-- `startsWithL s p` : the list `p` is an initial segment of `s`. -/
def startsWithL : List Char → List Char → Bool
  | _, [] => true
  | [], _ :: _ => false
  | a :: s, b :: p => if a = b then startsWithL s p else false

/-- Python's substring test `sub in s`. -/
def hasSubstr : List Char → List Char → Bool
  | [], sub => startsWithL [] sub
  | a :: t, sub => startsWithL (a :: t) sub || hasSubstr t sub

/-- Number of positions of `s` at which `sub` occurs (Python `s.count(sub)`
for non-overlapping counts agrees on the inputs used here). -/
def countOccur : List Char → List Char → Nat
  | [], sub => if startsWithL [] sub then 1 else 0
  | a :: t, sub => (if startsWithL (a :: t) sub then 1 else 0) + countOccur t sub

/-- Two adjacent whitespace characters occur somewhere in the list. -/
def hasDoubleSpace : List Char → Bool
  | a :: b :: t => (isPySpace a && isPySpace b) || hasDoubleSpace (b :: t)
  | _ => false

/-! ## Decimal rendering (Python `str(n)` / `f"{n:02d}"` for `n < 1000`;
every number the pipeline prints is below 1000) -/

/-- The character of the decimal digit `n` (for `n ≤ 9`). -/
def digitChar (n : Nat) : Char := Char.ofNat (48 + n)

/-- Decimal rendering of `n < 1000`, as Python `str(n)`. -/
def natStr (n : Nat) : List Char :=
  if n < 10 then [digitChar n]
  else if n < 100 then [digitChar (n / 10), digitChar (n % 10)]
  else [digitChar (n / 100), digitChar (n / 10 % 10), digitChar (n % 10)]

/-- Python `f"{n:02d}"` for `n < 100`: zero-padded to two digits. -/
def pad2 (n : Nat) : List Char := if n < 10 then '0' :: natStr n else natStr n

/-- Numeric value of a digit character. -/
def digitVal (c : Char) : Nat := c.toNat - 48

/-! ## `clean_text_for_tts` (TextNormalizer) -/

/-- First substitution of `clean_text_for_tts`:
`re.sub(r'[-_/\\|]', ' ', text)`. -/
def replaceSymbols (l : List Char) : List Char :=
  l.map (fun c =>
    if c = '-' ∨ c = '_' ∨ c = '/' ∨ c = '\\' ∨ c = '|' then ' ' else c)

/-- Second substitution: `re.sub(r'[^\w\s]', '', text)` keeps only word
characters and whitespace. -/
def keepWordSpace (l : List Char) : List Char :=
  l.filter (fun c => isWordChar c || isPySpace c)

/-- Third substitution: `re.sub(r'\s+', ' ', text)` replaces every maximal
run of whitespace by one space. -/
def collapseSpaces : List Char → List Char
  | [] => []
  | [c] => if isPySpace c then [' '] else [c]
  | c :: d :: t =>
    if isPySpace c && isPySpace d then collapseSpaces (d :: t)
    else (if isPySpace c then ' ' else c) :: collapseSpaces (d :: t)

/-- `str.strip()`: remove leading and trailing whitespace. -/
def stripSpaces (l : List Char) : List Char :=
  ((l.dropWhile isPySpace).reverse.dropWhile isPySpace).reverse

/-- `clean_text_for_tts` from the source: symbol replacement, punctuation
removal, whitespace collapsing, strip; empty input returned unchanged. -/
def clean_text_for_tts (l : List Char) : List Char :=
  if l.isEmpty then l
  else stripSpaces (collapseSpaces (keepWordSpace (replaceSymbols l)))

/-! ## `fix_24h_times_for_tts` (TimeHumanizer, embedded military times) -/

/-- The replacement callback `convert_24h_time` of the source, on the four
matched digit characters. -/
def convert_24h_time (a b c d : Char) : List Char :=
  let hour := 10 * digitVal a + digitVal b
  let minute := 10 * digitVal c + digitVal d
  if hour = 0 then
    if minute = 0 then toL "midnight" else toL "12 " ++ pad2 minute ++ toL " AM"
  else if hour = 12 then
    if minute = 0 then toL "noon" else toL "12 " ++ pad2 minute ++ toL " PM"
  else if hour > 12 then
    if minute = 0 then natStr (hour - 12) else natStr (hour - 12) ++ toL " " ++ pad2 minute
  else
    if minute = 0 then natStr hour else natStr hour ++ toL " " ++ pad2 minute

/-- The body of the regex `[0-2]\d[0-5]\d`: first digit between `'0'` and
`'2'`, third between `'0'` and `'5'`, second and fourth any digit. -/
def isTimeQuad (a b c d : Char) : Bool :=
  decide (48 ≤ a.toNat ∧ a.toNat ≤ 50) && isDigitC b &&
  decide (48 ≤ c.toNat ∧ c.toNat ≤ 53) && isDigitC d

/-- Left-to-right scan of `re.sub(r'\b([0-2]\d[0-5]\d)\b', convert_24h_time,
text)`: `prev` is the original character just before the current position
(`none` at the start), used for the left word boundary; the right boundary
looks at the character after the four matched ones.  On a match the scan
resumes after the matched text, as `re.sub` does. -/
def fixScan : List Char → Option Char → List Char
  | a :: b :: c :: d :: rest, prev =>
    if (match prev with | none => true | some p => !isWordChar p)
        && isTimeQuad a b c d
        && (match rest with | [] => true | r :: _ => !isWordChar r) then
      convert_24h_time a b c d ++ fixScan rest (some d)
    else
      a :: fixScan (b :: c :: d :: rest) (some a)
  | l, _ => l

/-- `fix_24h_times_for_tts` from the source. -/
def fix_24h_times_for_tts (l : List Char) : List Char :=
  if l.isEmpty then l else fixScan l none

/-! ## `format_time_for_speech` (TimeHumanizer, clock times) -/

/-- Rest of the regex `(\d{1,2}):(\d{2})\s*(AM|PM)` after the hour digits:
colon, two minute digits, optional whitespace, the period marker.
`re.match` only anchors at the start, so trailing text is ignored. -/
def parsePeriod (hour minute : Nat) (l : List Char) : Option (Nat × Nat × Bool) :=
  match l with
  | 'A' :: 'M' :: _ => some (hour, minute, false)
  | 'P' :: 'M' :: _ => some (hour, minute, true)
  | _ => none

/-- Match `:(\d{2})\s*(AM|PM)` after a candidate hour. -/
def parseAfterHour (hour : Nat) (l : List Char) : Option (Nat × Nat × Bool) :=
  match l with
  | ':' :: m1 :: m2 :: rest =>
    if isDigitC m1 && isDigitC m2 then
      parsePeriod hour (10 * digitVal m1 + digitVal m2) (rest.dropWhile isPySpace)
    else none
  | _ => none

/-- `re.match(r'(\d{1,2}):(\d{2})\s*(AM|PM)', s)`: the greedy `\d{1,2}`
tries two digits first and backtracks to one (the backtrack can only fail,
since the colon position then holds a digit, but the attempt is kept to
mirror the regex). -/
def parseTime (s : List Char) : Option (Nat × Nat × Bool) :=
  match s with
  | [] => none
  | d1 :: rest =>
    if isDigitC d1 then
      match rest with
      | [] => none
      | d2 :: rest2 =>
        if isDigitC d2 then
          match parseAfterHour (10 * digitVal d1 + digitVal d2) rest2 with
          | some r => some r
          | none => parseAfterHour (digitVal d1) rest
        else parseAfterHour (digitVal d1) rest
    else none

/-- 12-hour to 24-hour conversion in the source:
`PM and hour != 12` adds 12, `AM and hour == 12` gives 0. -/
def to24 (h : Nat) (pm : Bool) : Nat :=
  if pm = true ∧ h ≠ 12 then h + 12
  else if pm = false ∧ h = 12 then 0
  else h

/-- `format_time_for_speech` from the source: parse `hh:mm AM/PM`, convert
to 24-hour, speak `midnight`/`noon`/bare hour/`hour minute`; a string that
does not match the pattern is returned unchanged. -/
def format_time_for_speech (s : List Char) : List Char :=
  match parseTime s with
  | none => s
  | some (h, m, pm) =>
    let hour := to24 h pm
    if m = 0 then
      if hour = 0 then toL "midnight"
      else if hour = 12 then toL "noon"
      else if hour > 12 then natStr (hour - 12)
      else natStr hour
    else
      if hour > 12 then natStr (hour - 12) ++ toL " " ++ pad2 m
      else natStr hour ++ toL " " ++ pad2 m

/-! ## Transitions, greeting, events -/

/-- The fixed vocabulary of `get_random_transition`. -/
def transitionsL : List (List Char) := [toL "followed by", toL "then", toL "next"]

/-- One call of `get_random_transition`, given the random choice `p`. -/
def pickTransition (p : Fin 3) : List Char :=
  if p.val = 0 then toL "followed by"
  else if p.val = 1 then toL "then"
  else toL "next"

/-- A concrete choice stream (used to instantiate theorems). -/
def defaultPicks : Nat → Fin 3 := fun _ => 0

/-- `get_time_greeting` from the source, with the current hour explicit. -/
def get_time_greeting (hour : Nat) : List Char :=
  if 5 ≤ hour ∧ hour < 12 then toL "Good morning"
  else if 12 ≤ hour ∧ hour < 17 then toL "Good afternoon"
  else if 17 ≤ hour ∧ hour < 21 then toL "Good evening"
  else toL "Good night"

/-- The fields of an event dictionary that the narrative pipeline reads
(`subject`, `start_time`, `end_time`, `organizer`); the remaining keys
(`location`, `importance`, ...) never reach `get_ai_day_analysis`'s
narrative. -/
structure Event where
  subject : List Char
  start_time : List Char
  end_time : List Char
  organizer : List Char

/-- `event['organizer'] if event['organizer'] else "Unknown organizer"`. -/
def orgOrFallback (e : Event) : List Char :=
  if e.organizer.isEmpty then toL "Unknown organizer" else e.organizer

/-- The clause of one event without the organizer suffix:
`"<subject> from <start> to <end>"` after text cleaning and time
humanizing. -/
def basePart (e : Event) : List Char :=
  fix_24h_times_for_tts (clean_text_for_tts e.subject) ++ toL " from " ++
    format_time_for_speech e.start_time ++ toL " to " ++
    format_time_for_speech e.end_time

/-- The loop body of `create_meeting_summary`: one event phrase.  The
suffix is dropped when `organizer and user_name and user_name.lower() in
organizer.lower()` (note `organizer` is the fallback-applied value). -/
def meetingPhrase (user_name : List Char) (e : Event) : List Char :=
  let organizer := orgOrFallback e
  let clean_subject := fix_24h_times_for_tts (clean_text_for_tts e.subject)
  let clean_organizer := clean_text_for_tts organizer
  let start_time := format_time_for_speech e.start_time
  let end_time := format_time_for_speech e.end_time
  let time_range := start_time ++ toL " to " ++ end_time
  if organizer ≠ [] ∧ user_name ≠ [] ∧
      hasSubstr (lowerL organizer) (lowerL user_name) = true then
    clean_subject ++ toL " from " ++ time_range
  else
    clean_subject ++ toL " from " ++ time_range ++ toL " with " ++ clean_organizer

/-- `create_meeting_summary` from the source (the unused `day_name`
parameter is dropped). -/
def create_meeting_summary (events : List Event) (user_name : List Char) :
    List (List Char) :=
  events.map (meetingPhrase user_name)

/-! ## Narrative assembly -/

/-- The `for i in range(1, len(parts) - 1)` loop plus the final
`", and finally <last>."` of the 3-or-more case; `k` is the index of the
next random choice. -/
def middleAndFinal : List (List Char) → (Nat → Fin 3) → Nat → List Char
  | [], _, _ => []
  | [last], _, _ => toL ", and finally " ++ last ++ toL "."
  | x :: y :: rest, picks, k =>
    toL ", " ++ pickTransition (picks k) ++ toL " " ++ x ++
      middleAndFinal (y :: rest) picks (k + 1)

/-- The length dispatch of the source: one phrase gets a period, two get a
random transition, three or more get transitions and `", and finally"`. -/
def assembleParts : List (List Char) → (Nat → Fin 3) → Nat → List Char
  | [], _, _ => []
  | [p], _, _ => p ++ toL "."
  | [p, q], picks, k =>
    p ++ toL ", " ++ pickTransition (picks k) ++ toL " " ++ q ++ toL "."
  | p :: q :: r :: rest, picks, k => p ++ middleAndFinal (q :: r :: rest) picks k

/-- Number of random transitions the source consumes for `n` phrases. -/
def picksUsed (n : Nat) : Nat := if n ≤ 1 then 0 else if n = 2 then 1 else n - 2

/-- Python truthiness of the `tomorrow_events_data` argument: `None` and
`[]` are both falsy. -/
def truthyOpt : Option (List Event) → Bool
  | none => false
  | some l => !l.isEmpty

/-- The `if tomorrow_events_data:` block of `get_ai_day_analysis`: what is
appended after today's narrative. -/
def tomorrowSection (tomorrow : Option (List Event)) (user_name : List Char)
    (picks : Nat → Fin 3) (k : Nat) : List Char :=
  match tomorrow with
  | none => []
  | some l =>
    if l.isEmpty then []
    else
      match create_meeting_summary l user_name with
      | [] => toL " Tomorrow is free with no scheduled meetings."
      | [p] => toL " Tomorrow you have " ++ p ++ toL "."
      | p :: q :: rest =>
        toL " Tomorrow you start with " ++ assembleParts (p :: q :: rest) picks k

/-- The body of the `try:` block of `get_ai_day_analysis`. -/
def composeBody (events_data : List Event) (tomorrow : Option (List Event))
    (hour : Nat) (user_name : List Char) (picks : Nat → Fin 3) : List Char :=
  if events_data.isEmpty && !truthyOpt tomorrow then
    get_time_greeting hour ++ toL " " ++ user_name ++
      toL "! You have a free day with no scheduled meetings - perfect time to catch up on personal projects or take a well-deserved break!"
  else
    let parts := create_meeting_summary events_data user_name
    let base :=
      if events_data.isEmpty then
        get_time_greeting hour ++ toL " " ++ user_name ++ toL "! You have a free day today."
      else
        get_time_greeting hour ++ toL " " ++ user_name ++
          toL "! You start your day with " ++ assembleParts parts picks 0
    base ++ tomorrowSection tomorrow user_name picks (picksUsed parts.length)

/-- `get_ai_day_analysis` with the `try`/`except` made explicit: the body
either returns a value (`Except.ok`) or raises (`Except.error`). -/
def get_ai_day_analysisE (events_data : List Event) (tomorrow : Option (List Event))
    (hour : Nat) (user_name : List Char) (picks : Nat → Fin 3) :
    Except (List Char) (List Char) :=
  Except.ok (composeBody events_data tomorrow hour user_name picks)

/-- `get_ai_day_analysis` from the source: the `except Exception` handler
turns any raised error into the apology string. -/
def get_ai_day_analysis (events_data : List Event) (tomorrow : Option (List Event))
    (hour : Nat) (user_name : List Char) (picks : Nat → Fin 3) : List Char :=
  match get_ai_day_analysisE events_data tomorrow hour user_name picks with
  | Except.ok s => s
  | Except.error e =>
    toL "Sorry, I could not create your day summary due to an error: " ++ e

/-! ## Specification-side definitions (for comparison with the source) -/

/-- `interleave parts conns`: the phrases in order, each later phrase
preceded by `", <connective> "`, closed by a period — the shape the
assembled narrative is claimed to have. -/
def glue : List (List Char) → List (List Char) → List Char
  | c :: cs, p :: ps => toL ", " ++ c ++ toL " " ++ p ++ glue cs ps
  | _, _ => []

/-- See `glue`. -/
def interleave (parts conns : List (List Char)) : List Char :=
  match parts with
  | [] => []
  | p :: ps => p ++ glue conns ps ++ toL "."

/-- The spoken form of a 24-hour time per the (amended) specification:
`midnight`/`noon`/bare wrapped hour for zero minutes, otherwise the hour
(wrapped only above 12) followed by the zero-padded minutes. -/
def specSpokenTime (hour24 minute : Nat) : List Char :=
  if minute = 0 then
    if hour24 = 0 then toL "midnight"
    else if hour24 = 12 then toL "noon"
    else if hour24 > 12 then natStr (hour24 - 12)
    else natStr hour24
  else
    if hour24 > 12 then natStr (hour24 - 12) ++ toL " " ++ pad2 minute
    else natStr hour24 ++ toL " " ++ pad2 minute

/-- The spoken phrase of an embedded military time per the (amended)
specification table. -/
def specMilitary (h m : Nat) : List Char :=
  if h = 0 then
    if m = 0 then toL "midnight" else toL "12 " ++ pad2 m ++ toL " AM"
  else if h = 12 then
    if m = 0 then toL "noon" else toL "12 " ++ pad2 m ++ toL " PM"
  else if h > 12 then
    if m = 0 then natStr (h - 12) else natStr (h - 12) ++ toL " " ++ pad2 m
  else
    if m = 0 then natStr h else natStr h ++ toL " " ++ pad2 m

/-- The 4-character military rendering `HHMM` of hour `h` and minute `m`
(two digits each). -/
def mil4 (h m : Nat) : List Char :=
  [digitChar (h / 10), digitChar (h % 10), digitChar (m / 10), digitChar (m % 10)]

/-- The character just before the current scan position after emitting `s`:
the last character of `s`, or the inherited `prev` when `s` is empty. -/
def lastOr : List Char → Option Char → Option Char
  | [], prev => prev
  | c :: t, _ => lastOr t (some c)

/-- The left word-boundary test of `\b`: start of text, or a non-word
character before the match. -/
def nonWordOpt : Option Char → Bool
  | none => true
  | some c => !isWordChar c

/-- The right word-boundary test of `\b`: end of text, or a non-word
character after the match. -/
def headNonWord : List Char → Bool
  | [] => true
  | c :: _ => !isWordChar c

/-- A text holding several embedded military times: each chunk is a
segment of surrounding text followed by one `HHMM` token, with a trailing
segment at the end. -/
def milText : List (List Char × Nat × Nat) → List Char → List Char
  | [], final => final
  | (s, h, m) :: rest, final => s ++ (mil4 h m ++ milText rest final)

/-- The same text with every embedded military time replaced by its spoken
phrase, everything else untouched. -/
def spokenText : List (List Char × Nat × Nat) → List Char → List Char
  | [], final => final
  | (s, h, m) :: rest, final => s ++ (specMilitary h m ++ spokenText rest final)

/-- The side conditions under which each `HHMM` token of a chunked text is
a whole-word match of `\b([0-2]\d[0-5]\d)\b`: segments contain no digits
(so no other window can start a match), each token's hour and minute parts
are inside the regex classes, the character before each token is a word
boundary (start of text or non-word), and the character after it is one
too. -/
def chunksOk : Option Char → List (List Char × Nat × Nat) → List Char → Bool
  | _, [], final => final.all (fun c => !isDigitC c)
  | prev, (s, h, m) :: rest, final =>
    s.all (fun c => !isDigitC c) && decide (h ≤ 29) && decide (m ≤ 59) &&
    nonWordOpt (lastOr s prev) && headNonWord (milText rest final) &&
    chunksOk (some (digitChar (m % 10))) rest final

/-- The two events of the end-to-end scenario of §8 of the spec. -/
def standupE : Event :=
  { subject := toL "Standup", start_time := toL "09:00 AM",
    end_time := toL "09:15 AM", organizer := toL "Alice" }

/-- See `standupE`. -/
def reviewE : Event :=
  { subject := toL "Review", start_time := toL "02:00 PM",
    end_time := toL "03:00 PM", organizer := toL "Bob" }

/-! # Helper lemmas -/

theorem startsWithL_same : ∀ p r : List Char, startsWithL (p ++ r) p = true := by
  intro p
  induction p with
  | nil => intro r; cases r <;> rfl
  | cons a t ih =>
    intro r
    simpa [startsWithL] using ih r

theorem pickTransition_mem : ∀ p : Fin 3, pickTransition p ∈ transitionsL := by
  decide

theorem pickTransition_ne_finally : ∀ p : Fin 3, pickTransition p ≠ toL "and finally" := by
  decide

theorem greeting_ne_nil : ∀ hour : Nat, get_time_greeting hour ≠ [] := by
  intro hour
  unfold get_time_greeting
  split
  · decide
  split
  · decide
  split
  · decide
  · decide

theorem append_ne_nil_left : ∀ a b : List Char, a ≠ [] → a ++ b ≠ [] := by
  intro a b h
  cases a with
  | nil => exact absurd rfl h
  | cons x t => simp

/-! # C7: `compose` always returns a string -/

/-- Claim C7: `get_ai_day_analysis` never propagates an exception: for
every input the `try:` body succeeds with a value, the function returns
exactly that value (so the `except` apology branch is the only other
outcome and is never taken), and even under total data absence the
returned string is non-empty. -/
theorem compose_never_fails :
    ∀ (ed : List Event) (tm : Option (List Event)) (hour : Nat)
      (un : List Char) (picks : Nat → Fin 3),
      ∃ s : List Char,
        get_ai_day_analysisE ed tm hour un picks = Except.ok s ∧
        get_ai_day_analysis ed tm hour un picks = s ∧ s ≠ [] := by
  intro ed tm hour un picks
  refine ⟨composeBody ed tm hour un picks, rfl, rfl, ?_⟩
  simp only [composeBody]
  split
  · apply append_ne_nil_left
    apply append_ne_nil_left
    apply append_ne_nil_left
    exact greeting_ne_nil hour
  · apply append_ne_nil_left
    split
    · apply append_ne_nil_left
      apply append_ne_nil_left
      apply append_ne_nil_left
      exact greeting_ne_nil hour
    · apply append_ne_nil_left
      apply append_ne_nil_left
      apply append_ne_nil_left
      apply append_ne_nil_left
      exact greeting_ne_nil hour

/-! # C9: the free-day sentence -/

/-- Counterexample to claim C9 as stated: with `userName = "free"` the
free-day sentence contains the user name twice (once in the name slot,
once inside "a free day"), not exactly once. -/
theorem free_day_name_not_once :
    countOccur (get_ai_day_analysis [] none 8 (toL "free") defaultPicks) (toL "free") = 2 ∧
    countOccur (get_ai_day_analysis [] none 8 (toL "free") defaultPicks) (toL "free") ≠ 1 := by
  exact ⟨by decide, by decide⟩

/-- Claim C9 (amended): with an empty today list and an absent tomorrow
list, `compose` returns exactly the single free-day template
`<greeting> <name>! You have a free day with no scheduled meetings -
perfect time to catch up on personal projects or take a well-deserved
break!`; the greeting and the user name therefore each occur exactly once
whenever they do not also occur in the fixed template text (checked here
for the §8 scenario inputs: hour 8, name "Sam"). -/
theorem free_day_amended :
    (∀ (hour : Nat) (name : List Char) (picks : Nat → Fin 3),
        get_ai_day_analysis [] none hour name picks =
          get_time_greeting hour ++ toL " " ++ name ++
            toL "! You have a free day with no scheduled meetings - perfect time to catch up on personal projects or take a well-deserved break!") ∧
    countOccur (get_ai_day_analysis [] none 8 (toL "Sam") defaultPicks)
      (toL "Good morning") = 1 ∧
    countOccur (get_ai_day_analysis [] none 8 (toL "Sam") defaultPicks)
      (toL "Sam") = 1 := by
  refine ⟨fun hour name picks => rfl, by decide, by decide⟩

/-! # C3: present-but-empty tomorrow list -/

/-- Claim C3 fails on the code: `if tomorrow_events_data:` is false for an
empty list as well as for `None`, so a present-but-empty tomorrow list
produces no tomorrow sentence at all — the output is identical to the
tomorrow-absent output and contains no "Tomorrow" section.  (The
`" Tomorrow is free with no scheduled meetings."` branch of the source is
unreachable.) -/
theorem tomorrow_empty_no_sentence :
    get_ai_day_analysis [standupE] (some []) 8 (toL "Sam") defaultPicks =
      get_ai_day_analysis [standupE] none 8 (toL "Sam") defaultPicks ∧
    get_ai_day_analysis [standupE] (some []) 8 (toL "Sam") defaultPicks =
      toL "Good morning Sam! You start your day with Standup from 9 to 9 15 with Alice." ∧
    hasSubstr (get_ai_day_analysis [standupE] (some []) 8 (toL "Sam") defaultPicks)
      (toL "Tomorrow") = false := by
  exact ⟨by decide, by decide, by decide⟩

/-! # C1: the end-to-end scenario -/

/-- Claim C1: for the §8 scenario (Standup 09:00–09:15 with Alice, Review
02:00–03:00 PM with Bob, tomorrow absent, user "Sam", hour 8), whatever
transition the random stream picks, the briefing starts with
`Good morning Sam! You start your day with Standup from 9 to 9 15 with
Alice, <t> Review from 2 to 3 with Bob.` for some `<t>` in the transition
vocabulary. -/
theorem scenario_two_meetings (picks : Nat → Fin 3) :
    ∃ t, t ∈ transitionsL ∧
      startsWithL (get_ai_day_analysis [standupE, reviewE] none 8 (toL "Sam") picks)
        (toL "Good morning Sam! You start your day with Standup from 9 to 9 15 with Alice, "
          ++ t ++ toL " Review from 2 to 3 with Bob.") = true := by
  refine ⟨pickTransition (picks 0), pickTransition_mem (picks 0), ?_⟩
  have hc : get_ai_day_analysis [standupE, reviewE] none 8 (toL "Sam") picks =
      (toL "Good morning Sam! You start your day with Standup from 9 to 9 15 with Alice"
        ++ toL ", " ++ pickTransition (picks 0) ++ toL " "
        ++ toL "Review from 2 to 3 with Bob" ++ toL ".") ++ [] := rfl
  rw [List.append_nil] at hc
  rw [hc]
  have hm := pickTransition_mem (picks 0)
  simp only [transitionsL, List.mem_cons, List.not_mem_nil, or_false] at hm
  rcases hm with h | h | h <;> rw [h] <;> decide

/-! # C2: connective structure of the assembled narrative -/

theorem toL_comma_and_finally_split :
    toL ", and finally " = toL ", " ++ toL "and finally" ++ toL " " := by decide

theorem middleAndFinal_glue (picks : Nat → Fin 3) :
    ∀ (mid : List (List Char)) (k : Nat), mid ≠ [] →
      ∃ conns : List (List Char),
        middleAndFinal mid picks k = glue conns mid ++ toL "." ∧
        conns.length = mid.length ∧
        conns.getLast? = some (toL "and finally") ∧
        ∀ c ∈ conns.dropLast, c ∈ transitionsL := by
  intro mid
  induction mid with
  | nil => intro k h; exact absurd rfl h
  | cons x xs ih =>
    intro k _
    cases xs with
    | nil =>
      refine ⟨[toL "and finally"], ?_, rfl, rfl, by simp⟩
      simp [middleAndFinal, glue, toL_comma_and_finally_split, List.append_assoc]
    | cons y ys =>
      obtain ⟨conns, h1, h2, h3, h4⟩ := ih (k + 1) (by simp)
      have hne : conns ≠ [] := by
        intro hc
        rw [hc] at h2
        simp at h2
      refine ⟨pickTransition (picks k) :: conns, ?_, by simp [h2], ?_, ?_⟩
      · simp [middleAndFinal, glue, h1, List.append_assoc]
      · cases conns with
        | nil => exact absurd rfl hne
        | cons c cs => simpa using h3
      · cases conns with
        | nil => exact absurd rfl hne
        | cons c cs =>
          intro e he
          rw [List.dropLast_cons₂] at he
          rcases List.mem_cons.mp he with h | h
          · rw [h]; exact pickTransition_mem _
          · exact h4 e h

/-- Claim C2: for every non-empty list of `N` event phrases, the assembled
day narrative is the phrases in received order joined by exactly
`N - 1` inserted connectives; the connective before the final phrase is
`"and finally"` iff `N ≥ 3`, every earlier connective comes from the
transition vocabulary, and for `N = 2` the single connective comes from the
transition vocabulary. -/
theorem assemble_connective_spec (parts : List (List Char)) (picks : Nat → Fin 3)
    (k : Nat) (h : parts ≠ []) :
    ∃ conns : List (List Char),
      assembleParts parts picks k = interleave parts conns ∧
      conns.length = parts.length - 1 ∧
      (conns.getLast? = some (toL "and finally") ↔ 3 ≤ parts.length) ∧
      (∀ c ∈ conns.dropLast, c ∈ transitionsL) ∧
      (parts.length = 2 → ∃ t, t ∈ transitionsL ∧ conns = [t]) := by
  match parts with
  | [] => exact absurd rfl h
  | [p] =>
    refine ⟨[], ?_, by simp, by simp, by simp, by simp⟩
    simp [assembleParts, interleave, glue]
  | [p, q] =>
    refine ⟨[pickTransition (picks k)], ?_, by simp, ?_, by simp, ?_⟩
    · simp [assembleParts, interleave, glue, List.append_assoc]
    · simp only [List.getLast?_singleton, Option.some.injEq]
      constructor
      · intro hcontra
        exact absurd hcontra (pickTransition_ne_finally (picks k))
      · intro hcontra
        simp at hcontra
    · intro _
      exact ⟨pickTransition (picks k), pickTransition_mem _, rfl⟩
  | p :: q :: r :: rest =>
    obtain ⟨conns, h1, h2, h3, h4⟩ :=
      middleAndFinal_glue picks (q :: r :: rest) k (by simp)
    refine ⟨conns, ?_, ?_, ?_, h4, ?_⟩
    · simp [assembleParts, interleave, h1, List.append_assoc]
    · simp [h2]
    · rw [h3]
      simp
    · intro hcontra
      simp at hcontra

/-- Witness for `assemble_connective_spec`: three concrete phrases with the
default choice stream. -/
theorem assemble_connective_spec_witness :
    ([toL "a", toL "b", toL "c"] : List (List Char)) ≠ [] ∧
    ∃ conns : List (List Char),
      assembleParts [toL "a", toL "b", toL "c"] defaultPicks 0 =
        interleave [toL "a", toL "b", toL "c"] conns ∧
      conns.length = ([toL "a", toL "b", toL "c"] : List (List Char)).length - 1 ∧
      (conns.getLast? = some (toL "and finally") ↔
        3 ≤ ([toL "a", toL "b", toL "c"] : List (List Char)).length) ∧
      (∀ c ∈ conns.dropLast, c ∈ transitionsL) ∧
      (([toL "a", toL "b", toL "c"] : List (List Char)).length = 2 →
        ∃ t, t ∈ transitionsL ∧ conns = [t]) :=
  ⟨by decide, assemble_connective_spec [toL "a", toL "b", toL "c"] defaultPicks 0 (by decide)⟩

/-! # C4: embedded military times -/

theorem digitChar_toNat : ∀ n : Nat, n ≤ 9 → (digitChar n).toNat = 48 + n := by
  intro n h
  interval_cases n <;> decide

theorem digitVal_digitChar : ∀ n : Nat, n ≤ 9 → digitVal (digitChar n) = n := by
  intro n h
  rw [digitVal, digitChar_toNat n h]
  omega

theorem isTimeQuad_mil4 : ∀ h m : Nat, h ≤ 29 → m ≤ 59 →
    isTimeQuad (digitChar (h / 10)) (digitChar (h % 10))
      (digitChar (m / 10)) (digitChar (m % 10)) = true := by
  intro h m hh hm
  have h1 := digitChar_toNat (h / 10) (by omega)
  have h2 := digitChar_toNat (h % 10) (by omega)
  have h3 := digitChar_toNat (m / 10) (by omega)
  have h4 := digitChar_toNat (m % 10) (by omega)
  simp only [isTimeQuad, isDigitC, Bool.and_eq_true, decide_eq_true_eq, h1, h2, h3, h4]
  omega

theorem isTimeQuad_hi_false : ∀ h m : Nat, 30 ≤ h → h ≤ 99 → m ≤ 99 →
    isTimeQuad (digitChar (h / 10)) (digitChar (h % 10))
      (digitChar (m / 10)) (digitChar (m % 10)) = false := by
  intro h m hh hh2 hm
  have h1 := digitChar_toNat (h / 10) (by omega)
  apply Bool.eq_false_iff.mpr
  intro hq
  simp only [isTimeQuad, isDigitC, Bool.and_eq_true, decide_eq_true_eq] at hq
  rw [h1] at hq
  omega

theorem isTimeQuad_minute_false : ∀ h m : Nat, h ≤ 29 → 60 ≤ m → m ≤ 99 →
    isTimeQuad (digitChar (h / 10)) (digitChar (h % 10))
      (digitChar (m / 10)) (digitChar (m % 10)) = false := by
  intro h m hh hm hm2
  have h3 := digitChar_toNat (m / 10) (by omega)
  apply Bool.eq_false_iff.mpr
  intro hq
  simp only [isTimeQuad, isDigitC, Bool.and_eq_true, decide_eq_true_eq] at hq
  rw [h3] at hq
  omega

theorem fixScan_mil4_match : ∀ h m : Nat, h ≤ 29 → m ≤ 59 →
    fix_24h_times_for_tts (mil4 h m) = specMilitary h m := by
  intro h m hh hm
  have hq := isTimeQuad_mil4 h m hh hm
  have hv1 := digitVal_digitChar (h / 10) (by omega)
  have hv2 := digitVal_digitChar (h % 10) (by omega)
  have hv3 := digitVal_digitChar (m / 10) (by omega)
  have hv4 := digitVal_digitChar (m % 10) (by omega)
  have hmod : 10 * (h / 10) + h % 10 = h := by omega
  have mmod : 10 * (m / 10) + m % 10 = m := by omega
  simp only [mil4, fix_24h_times_for_tts, List.isEmpty_cons, Bool.false_eq_true,
    if_false, fixScan, hq, Bool.true_and, Bool.and_true, if_true,
    List.append_nil, convert_24h_time, hv1, hv2, hv3, hv4, hmod, mmod,
    specMilitary]

theorem fixScan_mil4_hi : ∀ h m : Nat, 30 ≤ h → h ≤ 99 → m ≤ 99 →
    fix_24h_times_for_tts (mil4 h m) = mil4 h m := by
  intro h m hh hh2 hm
  have hq := isTimeQuad_hi_false h m hh hh2 hm
  simp only [mil4, fix_24h_times_for_tts, List.isEmpty_cons, Bool.false_eq_true,
    if_false, fixScan, hq, Bool.true_and, Bool.and_true, Bool.false_and,
    Bool.and_false, if_false]

theorem fixScan_mil4_minute : ∀ h m : Nat, h ≤ 29 → 60 ≤ m → m ≤ 99 →
    fix_24h_times_for_tts (mil4 h m) = mil4 h m := by
  intro h m hh hm hm2
  have hq := isTimeQuad_minute_false h m hh hm hm2
  simp only [mil4, fix_24h_times_for_tts, List.isEmpty_cons, Bool.false_eq_true,
    if_false, fixScan, hq, Bool.true_and, Bool.and_true, Bool.false_and,
    Bool.and_false, if_false]

theorem isWordChar_digitChar : ∀ n : Nat, n ≤ 9 → isWordChar (digitChar n) = true := by
  intro n h
  interval_cases n <;> decide

theorem isTimeQuad_false_of_first : ∀ a b c d : Char,
    isDigitC a = false → isTimeQuad a b c d = false := by
  intro a b c d ha
  apply Bool.eq_false_iff.mpr
  intro hq
  simp only [isTimeQuad, Bool.and_eq_true, decide_eq_true_eq] at hq
  rw [isDigitC, decide_eq_false_iff_not] at ha
  obtain ⟨⟨⟨h1, -⟩, -⟩, -⟩ := hq
  exact ha ⟨h1.1, by omega⟩

theorem step_nondigit : ∀ (a : Char) (l : List Char) (prev : Option Char),
    isDigitC a = false → fixScan (a :: l) prev = a :: fixScan l (some a) := by
  intro a l prev ha
  match l with
  | [] => simp [fixScan]
  | [b] => simp [fixScan]
  | [b, c] => simp [fixScan]
  | b :: c :: d :: r =>
    have hq := isTimeQuad_false_of_first a b c d ha
    simp [fixScan, hq]

theorem step_wordPrev : ∀ (a p : Char) (l : List Char),
    isWordChar p = true → fixScan (a :: l) (some p) = a :: fixScan l (some a) := by
  intro a p l hp
  match l with
  | [] => simp [fixScan]
  | [b] => simp [fixScan]
  | [b, c] => simp [fixScan]
  | b :: c :: d :: r => simp [fixScan, hp]

theorem fixScan_append_nodigit : ∀ (s rest : List Char) (prev : Option Char),
    (∀ c ∈ s, isDigitC c = false) →
    fixScan (s ++ rest) prev = s ++ fixScan rest (lastOr s prev) := by
  intro s
  induction s with
  | nil => intro rest prev _; rfl
  | cons a s' ih =>
    intro rest prev hs
    rw [List.cons_append, step_nondigit a (s' ++ rest) prev (hs a (List.mem_cons_self _ _))]
    rw [ih rest (some a) (fun c hc => hs c (List.mem_cons_of_mem _ hc))]
    rfl

theorem fixScan_nodigit : ∀ (s : List Char) (prev : Option Char),
    (∀ c ∈ s, isDigitC c = false) → fixScan s prev = s := by
  intro s prev h
  have h2 := fixScan_append_nodigit s [] prev h
  have h3 : fixScan ([] : List Char) (lastOr s prev) = [] := rfl
  rw [h3, List.append_nil] at h2
  exact h2

theorem convert_mil4 : ∀ h m : Nat, h ≤ 29 → m ≤ 59 →
    convert_24h_time (digitChar (h / 10)) (digitChar (h % 10))
      (digitChar (m / 10)) (digitChar (m % 10)) = specMilitary h m := by
  intro h m hh hm
  have hv1 := digitVal_digitChar (h / 10) (by omega)
  have hv2 := digitVal_digitChar (h % 10) (by omega)
  have hv3 := digitVal_digitChar (m / 10) (by omega)
  have hv4 := digitVal_digitChar (m % 10) (by omega)
  have hmod : 10 * (h / 10) + h % 10 = h := by omega
  have mmod : 10 * (m / 10) + m % 10 = m := by omega
  simp only [convert_24h_time, hv1, hv2, hv3, hv4, hmod, mmod, specMilitary]

theorem fixScan_token_match : ∀ (h m : Nat) (rest : List Char) (prev : Option Char),
    h ≤ 29 → m ≤ 59 → nonWordOpt prev = true → headNonWord rest = true →
    fixScan (mil4 h m ++ rest) prev =
      specMilitary h m ++ fixScan rest (some (digitChar (m % 10))) := by
  intro h m rest prev hh hm hprev hhead
  have hq := isTimeQuad_mil4 h m hh hm
  have hmil : mil4 h m ++ rest = digitChar (h / 10) :: digitChar (h % 10) ::
      digitChar (m / 10) :: digitChar (m % 10) :: rest := rfl
  rw [hmil]
  cases prev with
  | none =>
    cases rest with
    | nil => simp [fixScan, hq, convert_mil4 h m hh hm]
    | cons r t =>
      have hr : isWordChar r = false := by simpa [headNonWord] using hhead
      simp [fixScan, hq, hr, convert_mil4 h m hh hm]
  | some p =>
    have hp : isWordChar p = false := by simpa [nonWordOpt] using hprev
    cases rest with
    | nil => simp [fixScan, hq, hp, convert_mil4 h m hh hm]
    | cons r t =>
      have hr : isWordChar r = false := by simpa [headNonWord] using hhead
      simp [fixScan, hq, hp, hr, convert_mil4 h m hh hm]

theorem all_not_digit : ∀ s : List Char,
    s.all (fun c => !isDigitC c) = true → ∀ c ∈ s, isDigitC c = false := by
  intro s hs c hc
  have h2 := List.all_eq_true.mp hs c hc
  simpa using h2

theorem fixScan_chunks : ∀ (chunks : List (List Char × Nat × Nat))
    (final : List Char) (prev : Option Char),
    chunksOk prev chunks final = true →
    fixScan (milText chunks final) prev = spokenText chunks final := by
  intro chunks
  induction chunks with
  | nil =>
    intro final prev hok
    simp only [chunksOk] at hok
    exact fixScan_nodigit final prev (all_not_digit final hok)
  | cons chunk rest ih =>
    obtain ⟨s, h, m⟩ := chunk
    intro final prev hok
    simp only [chunksOk, Bool.and_eq_true, decide_eq_true_eq] at hok
    obtain ⟨⟨⟨⟨⟨hs, hh⟩, hm⟩, hbound⟩, hhead⟩, hrest⟩ := hok
    show fixScan (s ++ (mil4 h m ++ milText rest final)) prev =
      s ++ (specMilitary h m ++ spokenText rest final)
    rw [fixScan_append_nodigit s _ prev (all_not_digit s hs)]
    rw [fixScan_token_match h m (milText rest final) (lastOr s prev) hh hm hbound hhead]
    rw [ih final (some (digitChar (m % 10))) hrest]

theorem fixScan_token_nomatch : ∀ (h m : Nat) (s2 : List Char) (p : Option Char),
    h ≤ 99 → m ≤ 99 →
    isTimeQuad (digitChar (h / 10)) (digitChar (h % 10))
      (digitChar (m / 10)) (digitChar (m % 10)) = false →
    (∀ c ∈ s2, isDigitC c = false) →
    fixScan (mil4 h m ++ s2) p = mil4 h m ++ s2 := by
  intro h m s2 p hh hm hq hs2
  have hw1 := isWordChar_digitChar (h / 10) (by omega)
  have hw2 := isWordChar_digitChar (h % 10) (by omega)
  have hw3 := isWordChar_digitChar (m / 10) (by omega)
  have hmil : mil4 h m ++ s2 = digitChar (h / 10) :: digitChar (h % 10) ::
      digitChar (m / 10) :: digitChar (m % 10) :: s2 := rfl
  rw [hmil]
  have e1 : fixScan (digitChar (h / 10) :: digitChar (h % 10) ::
      digitChar (m / 10) :: digitChar (m % 10) :: s2) p =
      digitChar (h / 10) :: fixScan (digitChar (h % 10) ::
        digitChar (m / 10) :: digitChar (m % 10) :: s2) (some (digitChar (h / 10))) := by
    simp [fixScan, hq]
  rw [e1, step_wordPrev _ _ _ hw1, step_wordPrev _ _ _ hw2, step_wordPrev _ _ _ hw3,
    fixScan_nodigit s2 _ hs2]

theorem fix24_nomatch_in_text : ∀ (h m : Nat) (s1 s2 : List Char),
    h ≤ 99 → m ≤ 99 →
    isTimeQuad (digitChar (h / 10)) (digitChar (h % 10))
      (digitChar (m / 10)) (digitChar (m % 10)) = false →
    (∀ c ∈ s1, isDigitC c = false) → (∀ c ∈ s2, isDigitC c = false) →
    fix_24h_times_for_tts (s1 ++ (mil4 h m ++ s2)) = s1 ++ (mil4 h m ++ s2) := by
  intro h m s1 s2 hh hm hq hs1 hs2
  have hne : s1 ++ (mil4 h m ++ s2) ≠ [] := by
    intro hc
    have hlen := congrArg List.length hc
    simp [mil4] at hlen
  unfold fix_24h_times_for_tts
  rw [if_neg (by simpa [List.isEmpty_iff] using hne)]
  rw [fixScan_append_nodigit s1 _ none hs1,
    fixScan_token_nomatch h m s2 (lastOr s1 none) hh hm hq hs2]

/-- Counterexample to claim C4 as stated: the code maps the whole-word
token `0030` to `12 30 AM` (not `0 30` as the claimed case table says for
hour ≤ 12 with nonzero minute), and it rewrites `2400` to `12` even though
its first two digits exceed 23 (the regex hour class is `[0-2]\d`, i.e.
00–29, not 00–23). -/
theorem fix24_counterexample :
    fix_24h_times_for_tts (toL "0030") = toL "12 30 AM" ∧
    fix_24h_times_for_tts (toL "0030") ≠ toL "0 30" ∧
    fix_24h_times_for_tts (toL "2400") = toL "12" ∧
    fix_24h_times_for_tts (toL "2400") ≠ toL "2400" := by
  exact ⟨by decide, by decide, by decide, by decide⟩

theorem fix24_in_text : ∀ (chunks : List (List Char × Nat × Nat)) (final : List Char),
    chunksOk none chunks final = true →
    fix_24h_times_for_tts (milText chunks final) = spokenText chunks final := by
  intro chunks final hok
  unfold fix_24h_times_for_tts
  split
  · rename_i hempty
    rw [List.isEmpty_iff] at hempty
    cases chunks with
    | nil => rfl
    | cons chunk rest =>
      obtain ⟨s, h, m⟩ := chunk
      exfalso
      have hlen := congrArg List.length hempty
      simp only [milText, List.length_append, mil4, List.length_cons,
        List.length_nil] at hlen
      omega
  · exact fixScan_chunks chunks final none hok

/-- Claim C4 (amended): `fix_24h_times_for_tts` replaces exactly the
whole-word 4-digit tokens of the text whose first two digits are in 00–29
(not 00–23, the regex hour class being `[0-2]\d`) and whose last two
digits are in 00–59, and leaves every other part of the text unchanged.
For a text of digit-free segments around any number of such whole-word
tokens (`chunksOk`: each token's neighbours are non-word characters or the
ends of the text), every token is replaced by its spoken phrase and the
segments pass through untouched.  Each matched token `HHMM` maps per
`specMilitary`: 0000 to "midnight", hour 0 with nonzero minute to
"12 MM AM", 1200 to "noon", hour 12 with nonzero minute to "12 MM PM",
hour above 12 to the bare `hour-12` or "`hour-12` MM", and the remaining
hours to the bare hour or "hour MM" (minutes zero-padded).  A 4-digit
token whose hour part is 30–99 or whose minute part is 60–99 is left
unchanged, standing alone or inside digit-free surrounding text. -/
theorem fix24_amended :
    (∀ h m : Nat, h ≤ 29 → m ≤ 59 →
        fix_24h_times_for_tts (mil4 h m) = specMilitary h m) ∧
    (∀ h m : Nat, 30 ≤ h → h ≤ 99 → m ≤ 99 →
        fix_24h_times_for_tts (mil4 h m) = mil4 h m) ∧
    (∀ h m : Nat, h ≤ 29 → 60 ≤ m → m ≤ 99 →
        fix_24h_times_for_tts (mil4 h m) = mil4 h m) ∧
    (∀ (chunks : List (List Char × Nat × Nat)) (final : List Char),
        chunksOk none chunks final = true →
        fix_24h_times_for_tts (milText chunks final) = spokenText chunks final) ∧
    (∀ (h m : Nat) (s1 s2 : List Char), 30 ≤ h → h ≤ 99 → m ≤ 99 →
        (∀ c ∈ s1, isDigitC c = false) → (∀ c ∈ s2, isDigitC c = false) →
        fix_24h_times_for_tts (s1 ++ (mil4 h m ++ s2)) = s1 ++ (mil4 h m ++ s2)) ∧
    (∀ (h m : Nat) (s1 s2 : List Char), h ≤ 29 → 60 ≤ m → m ≤ 99 →
        (∀ c ∈ s1, isDigitC c = false) → (∀ c ∈ s2, isDigitC c = false) →
        fix_24h_times_for_tts (s1 ++ (mil4 h m ++ s2)) = s1 ++ (mil4 h m ++ s2)) :=
  ⟨fixScan_mil4_match, fixScan_mil4_hi, fixScan_mil4_minute, fix24_in_text,
   fun h m s1 s2 hh hh2 hm hs1 hs2 =>
     fix24_nomatch_in_text h m s1 s2 (by omega) hm
       (isTimeQuad_hi_false h m hh hh2 hm) hs1 hs2,
   fun h m s1 s2 hh hm hm2 hs1 hs2 =>
     fix24_nomatch_in_text h m s1 s2 (by omega) (by omega)
       (isTimeQuad_minute_false h m hh hm hm2) hs1 hs2⟩

/-- Witness for `fix24_amended`: the spec's own example 1815 → "6 15",
standing alone and embedded in the text "meeting at 1815 room", plus the
out-of-range token 3045 left unchanged inside "a 3045 b". -/
theorem fix24_amended_witness :
    ((18 : Nat) ≤ 29 ∧ (15 : Nat) ≤ 59) ∧
    fix_24h_times_for_tts (mil4 18 15) = specMilitary 18 15 ∧
    specMilitary 18 15 = toL "6 15" ∧
    chunksOk none [(toL "meeting at ", 18, 15)] (toL " room") = true ∧
    fix_24h_times_for_tts (milText [(toL "meeting at ", 18, 15)] (toL " room")) =
      spokenText [(toL "meeting at ", 18, 15)] (toL " room") ∧
    spokenText [(toL "meeting at ", 18, 15)] (toL " room") =
      toL "meeting at 6 15 room" ∧
    ((30 : Nat) ≤ 30 ∧ (30 : Nat) ≤ 99 ∧ (45 : Nat) ≤ 99 ∧
      (∀ c ∈ toL "a ", isDigitC c = false) ∧ (∀ c ∈ toL " b", isDigitC c = false)) ∧
    fix_24h_times_for_tts (toL "a " ++ (mil4 30 45 ++ toL " b")) =
      toL "a " ++ (mil4 30 45 ++ toL " b") :=
  ⟨by decide, fix24_amended.1 18 15 (by decide) (by decide), by decide,
   by decide,
   fix24_amended.2.2.2.1 [(toL "meeting at ", 18, 15)] (toL " room") (by decide),
   by decide,
   by decide,
   fix24_amended.2.2.2.2.1 30 45 (toL "a ") (toL " b") (by decide) (by decide)
     (by decide) (by decide) (by decide)⟩

/-! # C5: spoken clock times -/

/-- Counterexample to claim C5 as stated: `12:30 AM` is spoken as `0 30`
(the internal 24-hour hour 0 followed by the minutes), not `midnight 30`. -/
theorem format_time_counterexample :
    format_time_for_speech (toL "12:30 AM") = toL "0 30" ∧
    format_time_for_speech (toL "12:30 AM") ≠ toL "midnight 30" := by
  exact ⟨by decide, by decide⟩

/-- Claim C5 (amended): on a string matching the `hh:mm AM/PM` pattern,
`format_time_for_speech` produces "midnight" for 00:00, "noon" for 12:00,
the bare 12-hour-wrapped hour when the minutes are 0, and otherwise the
hour (wrapped only above 12, so 00:30 is "0 30" and 12:30 PM is "12 30")
followed by the zero-padded minutes, never an AM/PM suffix; in particular
"09:00 AM" gives "9", "12:00 PM" gives "noon", "12:30 AM" gives "0 30",
"12:00 AM" gives "midnight" and "01:00 PM" gives "1". -/
theorem format_time_amended :
    (∀ (s : List Char) (h m : Nat) (pm : Bool),
        parseTime s = some (h, m, pm) →
        format_time_for_speech s = specSpokenTime (to24 h pm) m) ∧
    format_time_for_speech (toL "09:00 AM") = toL "9" ∧
    format_time_for_speech (toL "12:00 PM") = toL "noon" ∧
    format_time_for_speech (toL "12:30 AM") = toL "0 30" ∧
    format_time_for_speech (toL "12:00 AM") = toL "midnight" ∧
    format_time_for_speech (toL "01:00 PM") = toL "1" := by
  refine ⟨?_, by decide, by decide, by decide, by decide, by decide⟩
  intro s h m pm hp
  simp only [format_time_for_speech, hp, specSpokenTime]

/-- Witness for `format_time_amended`: the parse of "09:00 AM". -/
theorem format_time_amended_witness :
    parseTime (toL "09:00 AM") = some (9, 0, false) ∧
    format_time_for_speech (toL "09:00 AM") = specSpokenTime (to24 9 false) 0 :=
  ⟨by decide, format_time_amended.1 (toL "09:00 AM") 9 0 false (by decide)⟩

/-! # C10: idempotence of the clock-time humanizer -/

theorem digitVal_le_of_isDigitC : ∀ c : Char, isDigitC c = true → digitVal c ≤ 9 := by
  intro c hc
  simp only [isDigitC, decide_eq_true_eq] at hc
  simp only [digitVal]
  omega

theorem parsePeriod_spec : ∀ hour minute l h m pm,
    parsePeriod hour minute l = some (h, m, pm) → h = hour ∧ m = minute := by
  intro hour minute l h m pm hp
  unfold parsePeriod at hp
  split at hp <;> simp_all

theorem parseAfterHour_spec : ∀ hour l h m pm,
    parseAfterHour hour l = some (h, m, pm) → h = hour ∧ m ≤ 99 := by
  intro hour l h m pm hp
  unfold parseAfterHour at hp
  split at hp
  · rename_i m1 m2 rest
    split at hp
    · rename_i hdig
      rw [Bool.and_eq_true] at hdig
      obtain ⟨hd1, hd2⟩ := hdig
      obtain ⟨h1, h2⟩ := parsePeriod_spec _ _ _ _ _ _ hp
      have b1 := digitVal_le_of_isDigitC m1 hd1
      have b2 := digitVal_le_of_isDigitC m2 hd2
      exact ⟨h1, by omega⟩
    · exact absurd hp (by simp)
  · exact absurd hp (by simp)

theorem parseTime_bounds : ∀ s h m pm,
    parseTime s = some (h, m, pm) → h ≤ 99 ∧ m ≤ 99 := by
  intro s h m pm hp
  unfold parseTime at hp
  split at hp
  · exact absurd hp (by simp)
  · rename_i d1 rest
    split at hp
    · rename_i hd1
      have b1 := digitVal_le_of_isDigitC d1 hd1
      split at hp
      · exact absurd hp (by simp)
      · rename_i d2 rest2
        split at hp
        · rename_i hd2
          have b2 := digitVal_le_of_isDigitC d2 hd2
          split at hp
          · rename_i r heq
            obtain ⟨rfl⟩ : r = (h, m, pm) := by simpa using hp
            obtain ⟨h1, h2⟩ := parseAfterHour_spec _ _ _ _ _ heq
            exact ⟨by omega, h2⟩
          · obtain ⟨h1, h2⟩ := parseAfterHour_spec _ _ _ _ _ hp
            exact ⟨by omega, h2⟩
        · obtain ⟨h1, h2⟩ := parseAfterHour_spec _ _ _ _ _ hp
          exact ⟨by omega, h2⟩
    · exact absurd hp (by simp)

theorem parseAfterHour_colon : ∀ hour l r,
    parseAfterHour hour l = some r → ':' ∈ l := by
  intro hour l r hp
  unfold parseAfterHour at hp
  split at hp
  · simp
  · exact absurd hp (by simp)

theorem parseTime_colon : ∀ s r, parseTime s = some r → ':' ∈ s := by
  intro s r hp
  unfold parseTime at hp
  split at hp
  · exact absurd hp (by simp)
  · rename_i d1 rest
    split at hp
    · split at hp
      · exact absurd hp (by simp)
      · rename_i d2 rest2
        split at hp
        · split at hp
          · rename_i r2 heq
            exact List.mem_cons_of_mem _ (List.mem_cons_of_mem _ (parseAfterHour_colon _ _ _ heq))
          · exact List.mem_cons_of_mem _ (parseAfterHour_colon _ _ _ hp)
        · exact List.mem_cons_of_mem _ (parseAfterHour_colon _ _ _ hp)
    · exact absurd hp (by simp)

theorem digitChar_ne_colon : ∀ n : Nat, n ≤ 9 → digitChar n ≠ ':' := by
  intro n h
  interval_cases n <;> decide

theorem natStr_no_colon : ∀ n : Nat, n < 100 → ':' ∉ natStr n := by
  intro n hn h
  unfold natStr at h
  split at h
  · rename_i h10
    simp only [List.mem_singleton] at h
    exact digitChar_ne_colon n (by omega) h.symm
  · simp only [List.mem_cons, List.mem_singleton, List.not_mem_nil, or_false] at h
    rcases h with h | h
    · exact digitChar_ne_colon (n / 10) (by omega) h.symm
    · exact digitChar_ne_colon (n % 10) (by omega) h.symm

theorem pad2_no_colon : ∀ n : Nat, n < 100 → ':' ∉ pad2 n := by
  intro n hn h
  unfold pad2 at h
  split at h
  · simp only [List.mem_cons] at h
    rcases h with h | h
    · exact absurd h (by decide)
    · exact natStr_no_colon n hn h
  · exact natStr_no_colon n hn h

theorem to24_le : ∀ h pm, h ≤ 99 → to24 h pm ≤ 111 := by
  intro h pm hh
  unfold to24
  split
  · omega
  · split <;> omega

theorem format_no_colon : ∀ s h m pm, parseTime s = some (h, m, pm) →
    ':' ∉ format_time_for_speech s := by
  intro s h m pm hp hmem
  obtain ⟨hh, hm⟩ := parseTime_bounds s h m pm hp
  have h24 := to24_le h pm hh
  simp only [format_time_for_speech, hp] at hmem
  split at hmem
  · split at hmem
    · exact absurd hmem (by decide)
    · split at hmem
      · exact absurd hmem (by decide)
      · split at hmem
        · exact natStr_no_colon _ (by omega) hmem
        · exact natStr_no_colon _ (by omega) hmem
  · split at hmem
    · simp only [List.mem_append] at hmem
      rcases hmem with (hmem | hmem) | hmem
      · exact natStr_no_colon _ (by omega) hmem
      · exact absurd hmem (by decide)
      · exact pad2_no_colon _ (by omega) hmem
    · simp only [List.mem_append] at hmem
      rcases hmem with (hmem | hmem) | hmem
      · exact natStr_no_colon _ (by omega) hmem
      · exact absurd hmem (by decide)
      · exact pad2_no_colon _ (by omega) hmem

/-- Claim C10: `format_time_for_speech` is total and idempotent on
arbitrary strings: a string matching the `hh:mm AM/PM` pattern is rewritten
to a phrase containing no colon, which can never match the pattern again,
and any other string is returned unchanged. -/
theorem format_time_idem : ∀ s : List Char,
    format_time_for_speech (format_time_for_speech s) = format_time_for_speech s := by
  intro s
  cases hp : parseTime s with
  | none =>
    have h1 : format_time_for_speech s = s := by
      simp [format_time_for_speech, hp]
    rw [h1, h1]
  | some r =>
    obtain ⟨h, m, pm⟩ := r
    have hnc := format_no_colon s h m pm hp
    have hnone : parseTime (format_time_for_speech s) = none := by
      cases hq : parseTime (format_time_for_speech s) with
      | none => rfl
      | some r2 => exact absurd (parseTime_colon _ _ hq) hnc
    set y := format_time_for_speech s with hy
    show format_time_for_speech y = y
    simp [format_time_for_speech, hnone]

/-! # C6: the organizer-suffix policy -/

theorem orgOrFallback_ne_nil : ∀ e : Event, orgOrFallback e ≠ [] := by
  intro e
  unfold orgOrFallback
  split
  · decide
  · rename_i h
    intro hc
    rw [hc] at h
    simp at h

/-- Counterexample to claim C6 as stated: the empty user name is
(case-insensitively) a substring of the organizer "Alice", yet the phrase
still carries the " with Alice" suffix — the source condition additionally
requires a non-empty user name, and tests the name against the
fallback-applied organizer. -/
theorem organizer_suffix_counterexample :
    hasSubstr (lowerL (toL "Alice")) (lowerL (toL "")) = true ∧
    meetingPhrase (toL "") standupE = toL "Standup from 9 to 9 15 with Alice" := by
  exact ⟨by decide, by decide⟩

/-- Claim C6 (amended): `meetingPhrase` omits the `" with <organizer>"`
suffix iff the user name is non-empty and is, case-insensitively, a
substring of the organizer string after the empty-organizer fallback
`"Unknown organizer"` has been applied; otherwise the suffix is included,
with the (fallback-applied) organizer run through the text normalizer. -/
theorem organizer_suffix_amended : ∀ (u : List Char) (e : Event),
    (meetingPhrase u e = basePart e ∨
      meetingPhrase u e =
        basePart e ++ toL " with " ++ clean_text_for_tts (orgOrFallback e)) ∧
    (meetingPhrase u e = basePart e ↔
      (u ≠ [] ∧ hasSubstr (lowerL (orgOrFallback e)) (lowerL u) = true)) := by
  intro u e
  have hbase_ne : basePart e ≠
      basePart e ++ toL " with " ++ clean_text_for_tts (orgOrFallback e) := by
    intro hcontra
    have hlen := congrArg List.length hcontra
    simp only [List.length_append] at hlen
    have h6 : (toL " with ").length = 6 := by decide
    omega
  by_cases hcond : (orgOrFallback e ≠ [] ∧ u ≠ [] ∧
      hasSubstr (lowerL (orgOrFallback e)) (lowerL u) = true)
  · have hA : meetingPhrase u e = basePart e := by
      simp only [meetingPhrase, if_pos hcond, basePart, List.append_assoc]
    refine ⟨Or.inl hA, ?_, ?_⟩
    · intro _
      exact ⟨hcond.2.1, hcond.2.2⟩
    · intro _
      exact hA
  · have hB : meetingPhrase u e =
        basePart e ++ toL " with " ++ clean_text_for_tts (orgOrFallback e) := by
      simp only [meetingPhrase, if_neg hcond, basePart, List.append_assoc]
    refine ⟨Or.inr hB, ?_, ?_⟩
    · intro hEq
      rw [hB] at hEq
      exact absurd hEq.symm hbase_ne
    · intro hu
      exact absurd ⟨orgOrFallback_ne_nil e, hu.1, hu.2⟩ hcond

/-- Witness for `organizer_suffix_amended`: user "Sam" and the Standup
event. -/
theorem organizer_suffix_amended_witness :
    (meetingPhrase (toL "Sam") standupE = basePart standupE ∨
      meetingPhrase (toL "Sam") standupE =
        basePart standupE ++ toL " with " ++
          clean_text_for_tts (orgOrFallback standupE)) ∧
    (meetingPhrase (toL "Sam") standupE = basePart standupE ↔
      (toL "Sam" ≠ [] ∧
        hasSubstr (lowerL (orgOrFallback standupE)) (lowerL (toL "Sam")) = true)) :=
  organizer_suffix_amended (toL "Sam") standupE

/-! # C8: the text normalizer -/

theorem mem_replaceSymbols : ∀ (l : List Char) (c : Char), c ∈ replaceSymbols l →
    c = ' ' ∨ (c ≠ '-' ∧ c ≠ '_' ∧ c ≠ '/' ∧ c ≠ '\\' ∧ c ≠ '|') := by
  intro l c hc
  unfold replaceSymbols at hc
  obtain ⟨a, _, ha⟩ := List.mem_map.mp hc
  by_cases hsym : (a = '-' ∨ a = '_' ∨ a = '/' ∨ a = '\\' ∨ a = '|')
  · rw [if_pos hsym] at ha
    exact Or.inl ha.symm
  · rw [if_neg hsym] at ha
    subst ha
    push_neg at hsym
    exact Or.inr ⟨hsym.1, hsym.2.1, hsym.2.2.1, hsym.2.2.2.1, hsym.2.2.2.2⟩

theorem mem_collapseSpaces : ∀ (l : List Char) (c : Char),
    c ∈ collapseSpaces l → c = ' ' ∨ (c ∈ l ∧ isPySpace c = false) := by
  intro l
  induction l with
  | nil => intro c h; simp [collapseSpaces] at h
  | cons a l' ih =>
    intro c h
    cases l' with
    | nil =>
      simp only [collapseSpaces] at h
      split at h
      · simp only [List.mem_singleton] at h
        exact Or.inl h
      · rename_i ha
        simp only [List.mem_singleton] at h
        subst h
        exact Or.inr ⟨List.mem_singleton_self c, by simpa using ha⟩
    | cons b t =>
      simp only [collapseSpaces] at h
      split at h
      · rcases ih c h with h1 | ⟨h2, h3⟩
        · exact Or.inl h1
        · exact Or.inr ⟨List.mem_cons_of_mem _ h2, h3⟩
      · rcases List.mem_cons.mp h with h1 | h1
        · by_cases ha : isPySpace a = true
          · rw [if_pos ha] at h1
            exact Or.inl h1
          · rw [if_neg ha] at h1
            subst h1
            exact Or.inr ⟨List.mem_cons_self _ _, by simpa using ha⟩
        · rcases ih c h1 with h2 | ⟨h3, h4⟩
          · exact Or.inl h2
          · exact Or.inr ⟨List.mem_cons_of_mem _ h3, h4⟩

theorem mem_dropWhile : ∀ (p : Char → Bool) (l : List Char) (c : Char),
    c ∈ l.dropWhile p → c ∈ l := by
  intro p l
  induction l with
  | nil => intro c h; simp at h
  | cons a t ih =>
    intro c h
    rw [List.dropWhile_cons] at h
    split at h
    · exact List.mem_cons_of_mem _ (ih c h)
    · exact h

theorem mem_stripSpaces : ∀ (l : List Char) (c : Char),
    c ∈ stripSpaces l → c ∈ l := by
  intro l c h
  unfold stripSpaces at h
  rw [List.mem_reverse] at h
  have h2 := mem_dropWhile _ _ _ h
  rw [List.mem_reverse] at h2
  exact mem_dropWhile _ _ _ h2

theorem clean_text_chars : ∀ x : List Char,
    (clean_text_for_tts x).all
      (fun c => isAlphaC c || isDigitC c || decide (c = ' ')) = true := by
  intro x
  rw [List.all_eq_true]
  intro c hc
  unfold clean_text_for_tts at hc
  split at hc
  · rename_i hx
    simp only [List.isEmpty_iff] at hx
    subst hx
    simp at hc
  · have h1 := mem_stripSpaces _ _ hc
    rcases mem_collapseSpaces _ _ h1 with h2 | ⟨h3, h4⟩
    · subst h2
      decide
    · obtain ⟨h6, h7⟩ := List.mem_filter.mp h3
      have hw : isWordChar c = true := by
        rw [Bool.or_eq_true] at h7
        rcases h7 with h7 | h7
        · exact h7
        · rw [h7] at h4
          cases h4
      rcases mem_replaceSymbols _ _ h6 with h8 | h8
      · subst h8
        exact absurd h4 (by decide)
      · simp only [isWordChar, Bool.or_eq_true, decide_eq_true_eq] at hw
        rcases hw with (hw | hw) | hw
        · simp [hw]
        · simp [hw]
        · exact absurd hw h8.2.1

theorem collapseSpaces_head : ∀ (a : Char) (l : List Char),
    ∃ t, collapseSpaces (a :: l) = (if isPySpace a = true then ' ' else a) :: t := by
  intro a l
  induction l generalizing a with
  | nil =>
    refine ⟨[], ?_⟩
    by_cases h : isPySpace a = true <;> simp [collapseSpaces, h]
  | cons b t ih =>
    by_cases hab : (isPySpace a && isPySpace b) = true
    · obtain ⟨t', ht⟩ := ih b
      refine ⟨t', ?_⟩
      rw [Bool.and_eq_true] at hab
      simp only [collapseSpaces, hab.1, hab.2, Bool.and_self, if_true, ht]
    · exact ⟨collapseSpaces (b :: t), by simp only [collapseSpaces, if_neg hab]⟩

theorem isPySpace_if : ∀ a : Char,
    isPySpace (if isPySpace a = true then ' ' else a) = isPySpace a := by
  intro a
  by_cases h : isPySpace a = true
  · rw [if_pos h, h]
    decide
  · rw [if_neg h]

theorem collapseSpaces_noDouble : ∀ l : List Char,
    hasDoubleSpace (collapseSpaces l) = false := by
  intro l
  induction l with
  | nil => rfl
  | cons a l' ih =>
    cases l' with
    | nil =>
      by_cases h : isPySpace a = true <;> simp [collapseSpaces, h, hasDoubleSpace]
    | cons b t =>
      by_cases hab : (isPySpace a && isPySpace b) = true
      · simpa [collapseSpaces, hab] using ih
      · obtain ⟨t', ht⟩ := collapseSpaces_head b t
        have hexp : collapseSpaces (a :: b :: t) =
            (if isPySpace a = true then ' ' else a) ::
              (if isPySpace b = true then ' ' else b) :: t' := by
          simp only [collapseSpaces, if_neg hab, ht]
        rw [hexp]
        simp only [hasDoubleSpace, isPySpace_if]
        rw [← ht, ih]
        simpa using hab

theorem hasDoubleSpace_iff : ∀ l : List Char, hasDoubleSpace l = true ↔
    ∃ (l1 : List Char) (a b : Char) (l2 : List Char),
      l = l1 ++ a :: b :: l2 ∧ isPySpace a = true ∧ isPySpace b = true := by
  intro l
  induction l with
  | nil =>
    constructor
    · intro h
      simp [hasDoubleSpace] at h
    · rintro ⟨l1, a, b, l2, h, -, -⟩
      cases l1 <;> simp at h
  | cons x l' ih =>
    cases l' with
    | nil =>
      constructor
      · intro h
        simp [hasDoubleSpace] at h
      · rintro ⟨l1, a, b, l2, h, -, -⟩
        cases l1 with
        | nil => simp at h
        | cons y l1' =>
          simp only [List.cons_append, List.cons.injEq] at h
          obtain ⟨-, h2⟩ := h
          cases l1' <;> simp at h2
    | cons y t =>
      constructor
      · intro h
        simp only [hasDoubleSpace, Bool.or_eq_true] at h
        rcases h with h | h
        · rw [Bool.and_eq_true] at h
          exact ⟨[], x, y, t, rfl, h.1, h.2⟩
        · obtain ⟨l1, a, b, l2, he, ha, hb⟩ := ih.mp h
          exact ⟨x :: l1, a, b, l2, by rw [List.cons_append, he], ha, hb⟩
      · rintro ⟨l1, a, b, l2, he, ha, hb⟩
        cases l1 with
        | nil =>
          simp only [List.nil_append, List.cons.injEq] at he
          obtain ⟨h1, h2, -⟩ := he
          subst h1
          subst h2
          simp [hasDoubleSpace, ha, hb]
        | cons z l1' =>
          simp only [List.cons_append, List.cons.injEq] at he
          obtain ⟨-, h2⟩ := he
          have hrec : hasDoubleSpace (y :: t) = true := ih.mpr ⟨l1', a, b, l2, h2, ha, hb⟩
          simp [hasDoubleSpace, hrec]

theorem hasDoubleSpace_tail : ∀ (x : Char) (t : List Char),
    hasDoubleSpace (x :: t) = false → hasDoubleSpace t = false := by
  intro x t h
  cases t with
  | nil => rfl
  | cons y t' =>
    simp only [hasDoubleSpace, Bool.or_eq_false_iff] at h
    exact h.2

theorem hasDoubleSpace_dropWhile : ∀ (p : Char → Bool) (l : List Char),
    hasDoubleSpace l = false → hasDoubleSpace (l.dropWhile p) = false := by
  intro p l
  induction l with
  | nil => intro h; exact h
  | cons x t ih =>
    intro h
    rw [List.dropWhile_cons]
    split
    · exact ih (hasDoubleSpace_tail x t h)
    · exact h

theorem hasDoubleSpace_reverse_false : ∀ l : List Char,
    hasDoubleSpace l = false → hasDoubleSpace l.reverse = false := by
  intro l h
  by_contra hc
  rw [Bool.not_eq_false] at hc
  obtain ⟨l1, a, b, l2, he, ha, hb⟩ := (hasDoubleSpace_iff _).mp hc
  have hl : l = l2.reverse ++ b :: a :: l1.reverse := by
    have h2 := congrArg List.reverse he
    rw [List.reverse_reverse] at h2
    rw [h2]
    simp
  have : hasDoubleSpace l = true :=
    (hasDoubleSpace_iff l).mpr ⟨l2.reverse, b, a, l1.reverse, hl, hb, ha⟩
  rw [this] at h
  cases h

theorem dropWhile_shape : ∀ (p : Char → Bool) (l : List Char),
    l.dropWhile p = [] ∨ ∃ x t, l.dropWhile p = x :: t ∧ p x = false := by
  intro p l
  induction l with
  | nil => exact Or.inl rfl
  | cons a t ih =>
    rw [List.dropWhile_cons]
    split
    · exact ih
    · rename_i h
      exact Or.inr ⟨a, t, rfl, by simpa using h⟩

theorem dropWhile_eq_self_of_head : ∀ (p : Char → Bool) (l : List Char),
    (∀ x t, l = x :: t → p x = false) → l.dropWhile p = l := by
  intro p l h
  cases l with
  | nil => rfl
  | cons x t =>
    rw [List.dropWhile_cons, if_neg]
    simp [h x t rfl]

theorem getLast?_append_right : ∀ (u v : List Char), v ≠ [] →
    (u ++ v).getLast? = v.getLast? := by
  intro u v hv
  induction u with
  | nil => rfl
  | cons x u' ih =>
    cases hu : u' ++ v with
    | nil => exact absurd (List.append_eq_nil.mp hu).2 hv
    | cons z w =>
      calc (x :: u' ++ v).getLast? = (x :: (z :: w)).getLast? := by
              rw [List.cons_append, hu]
        _ = (z :: w).getLast? := List.getLast?_cons_cons
        _ = (u' ++ v).getLast? := by rw [hu]
        _ = v.getLast? := ih

theorem stripSpaces_eq_self : ∀ l : List Char,
    (∀ x, l.head? = some x → isPySpace x = false) →
    (∀ x, l.getLast? = some x → isPySpace x = false) →
    stripSpaces l = l := by
  intro l h1 h2
  unfold stripSpaces
  have hd : l.dropWhile isPySpace = l := by
    apply dropWhile_eq_self_of_head
    intro x t he
    exact h1 x (by rw [he]; rfl)
  rw [hd]
  have hd2 : l.reverse.dropWhile isPySpace = l.reverse := by
    apply dropWhile_eq_self_of_head
    intro x t he
    apply h2 x
    rw [← List.head?_reverse, he]
    rfl
  rw [hd2, List.reverse_reverse]

theorem stripSpaces_head : ∀ (l : List Char) (x : Char),
    (stripSpaces l).head? = some x → isPySpace x = false := by
  intro l x hx
  unfold stripSpaces at hx
  rw [List.head?_reverse] at hx
  rcases dropWhile_shape isPySpace (l.dropWhile isPySpace).reverse with hB | ⟨y, t, hB, hy⟩
  · rw [hB] at hx
    cases hx
  · have hBne : (l.dropWhile isPySpace).reverse.dropWhile isPySpace ≠ [] := by
      rw [hB]
      simp
    have h1 : ((l.dropWhile isPySpace).reverse.dropWhile isPySpace).getLast? =
        (l.dropWhile isPySpace).reverse.getLast? := by
      have h2 := getLast?_append_right
        ((l.dropWhile isPySpace).reverse.takeWhile isPySpace)
        ((l.dropWhile isPySpace).reverse.dropWhile isPySpace) hBne
      rw [List.takeWhile_append_dropWhile] at h2
      exact h2.symm
    rw [h1, List.getLast?_reverse] at hx
    rcases dropWhile_shape isPySpace l with hA | ⟨z, w, hA, hz⟩
    · rw [hA] at hx
      cases hx
    · rw [hA] at hx
      simp only [List.head?_cons, Option.some.injEq] at hx
      rw [← hx]
      exact hz

theorem stripSpaces_last : ∀ (l : List Char) (x : Char),
    (stripSpaces l).getLast? = some x → isPySpace x = false := by
  intro l x hx
  unfold stripSpaces at hx
  rw [List.getLast?_reverse] at hx
  rcases dropWhile_shape isPySpace (l.dropWhile isPySpace).reverse with hB | ⟨y, t, hB, hy⟩
  · rw [hB] at hx
    cases hx
  · rw [hB] at hx
    simp only [List.head?_cons, Option.some.injEq] at hx
    rw [← hx]
    exact hy

theorem stripSpaces_idem : ∀ l : List Char,
    stripSpaces (stripSpaces l) = stripSpaces l := by
  intro l
  apply stripSpaces_eq_self
  · intro x h
    exact stripSpaces_head l x h
  · intro x h
    exact stripSpaces_last l x h

theorem collapseSpaces_eq_self : ∀ l : List Char,
    (∀ c ∈ l, isPySpace c = true → c = ' ') →
    hasDoubleSpace l = false →
    collapseSpaces l = l := by
  intro l
  induction l with
  | nil => intro _ _; rfl
  | cons a l' ih =>
    intro hmem hdd
    cases l' with
    | nil =>
      simp only [collapseSpaces]
      split
      · rename_i ha
        rw [hmem a (List.mem_singleton_self a) ha]
      · rfl
    | cons b t =>
      have hnd : ¬(isPySpace a && isPySpace b) = true := by
        intro hc
        rw [Bool.and_eq_true] at hc
        simp [hasDoubleSpace, hc.1, hc.2] at hdd
      simp only [collapseSpaces, if_neg hnd]
      congr 1
      · split
        · rename_i ha
          exact (hmem a (List.mem_cons_self _ _) ha).symm
        · rfl
      · exact ih (fun c hc hsp => hmem c (List.mem_cons_of_mem _ hc) hsp)
          (hasDoubleSpace_tail _ _ hdd)

theorem replaceSymbols_eq_self : ∀ l : List Char,
    (∀ c ∈ l, (isAlphaC c || isDigitC c || decide (c = ' ')) = true) →
    replaceSymbols l = l := by
  intro l h
  unfold replaceSymbols
  induction l with
  | nil => rfl
  | cons a t ih =>
    simp only [List.map_cons]
    have ha := h a (List.mem_cons_self _ _)
    congr 1
    · rw [if_neg]
      intro hc
      rcases hc with h1 | h1 | h1 | h1 | h1 <;> (subst h1; exact absurd ha (by decide))
    · exact ih (fun c hc => h c (List.mem_cons_of_mem _ hc))

theorem keepWordSpace_eq_self : ∀ l : List Char,
    (∀ c ∈ l, (isAlphaC c || isDigitC c || decide (c = ' ')) = true) →
    keepWordSpace l = l := by
  intro l h
  unfold keepWordSpace
  rw [List.filter_eq_self]
  intro a ha
  have h2 := h a ha
  rw [Bool.or_eq_true, Bool.or_eq_true] at h2
  rcases h2 with (h1 | h1) | h1
  · simp [isWordChar, h1]
  · simp [isWordChar, h1]
  · rw [decide_eq_true_eq] at h1
    subst h1
    decide

/-- Claim C8: for every input string, `clean_text_for_tts` produces a
string containing only letters, digits and single spaces (no two adjacent
whitespace characters, no leading or trailing whitespace — stripping it
again is the identity), it is idempotent, and empty input is returned
unchanged. -/
theorem clean_text_props : ∀ x : List Char,
    ((clean_text_for_tts x).all
       (fun c => isAlphaC c || isDigitC c || decide (c = ' ')) = true) ∧
    hasDoubleSpace (clean_text_for_tts x) = false ∧
    stripSpaces (clean_text_for_tts x) = clean_text_for_tts x ∧
    clean_text_for_tts (clean_text_for_tts x) = clean_text_for_tts x ∧
    clean_text_for_tts ([] : List Char) = [] := by
  intro x
  have hall := clean_text_chars x
  have hdd : hasDoubleSpace (clean_text_for_tts x) = false := by
    unfold clean_text_for_tts
    split
    · rename_i hx
      simp only [List.isEmpty_iff] at hx
      subst hx
      rfl
    · unfold stripSpaces
      apply hasDoubleSpace_reverse_false
      apply hasDoubleSpace_dropWhile
      apply hasDoubleSpace_reverse_false
      apply hasDoubleSpace_dropWhile
      exact collapseSpaces_noDouble _
  have hstrip : stripSpaces (clean_text_for_tts x) = clean_text_for_tts x := by
    unfold clean_text_for_tts
    split
    · rename_i hx
      simp only [List.isEmpty_iff] at hx
      subst hx
      rfl
    · exact stripSpaces_idem _
  refine ⟨hall, hdd, hstrip, ?_, rfl⟩
  set y := clean_text_for_tts x with hy
  show clean_text_for_tts y = y
  have hmem : ∀ c ∈ y, (isAlphaC c || isDigitC c || decide (c = ' ')) = true := by
    intro c hc
    exact List.all_eq_true.mp hall c hc
  have hspc : ∀ c ∈ y, isPySpace c = true → c = ' ' := by
    intro c hc hsp
    have hp := hmem c hc
    rw [isPySpace, decide_eq_true_eq] at hsp
    rcases hsp with h | h | h | h | h | h
    · exact h
    all_goals (subst h; exact absurd hp (by decide))
  unfold clean_text_for_tts
  split
  · rfl
  · rw [replaceSymbols_eq_self y hmem, keepWordSpace_eq_self y hmem,
      collapseSpaces_eq_self y hspc hdd, hstrip]
